import Mathlib

/-!
# Verification of the fragstrings descriptor / encode / decode logic

Shallow embedding of the `fragstrings` repository.  Rust string slices are
modelled as `List Char`; the two-character delimiter `__` splits an encoded
string into fragments exactly as Rust's `str::split("__")` does (leftmost,
non-overlapping).  The descriptor parsers of `utils` and `format-procmacro`,
the encoder generated by `frag_format!` and the decoder generated by
`frag_parse!` are translated as executable functions.
-/

namespace Fragstrings

/-- A text fragment (a Rust `&str` / `String`), modelled as a list of characters. -/
abbrev Frag := List Char

/-- `FormatItemType` from `utils::fmt_strings` (also the `FormatItem` enum of
`format-procmacro`): the declared type of one slot. -/
inductive FormatItemType where
  | Str
  | Int
deriving DecidableEq, Repr

/-- `FormatItemOpt` from `utils::fmt_strings`. -/
inductive FormatItemOpt where
  | Mandatory
  | Optional
deriving DecidableEq, Repr

/-- `FormatItem(FormatItemType, FormatItemOpt)` from `utils::fmt_strings`. -/
structure FormatItem where
  ty : FormatItemType
  opt : FormatItemOpt
deriving DecidableEq, Repr

/-- `FormatEnding` from `utils::fmt_strings`. -/
inductive FormatEnding where
  | Closed
  | Open
deriving DecidableEq, Repr

/-- `FormatString(Vec<FormatItem>, FormatEnding)` from `utils::fmt_strings`. -/
structure FormatString where
  items : List FormatItem
  ending : FormatEnding
deriving DecidableEq, Repr

/-- The character-to-type dispatch shared by both Rust parsers
(`b's' => Str, b'd' => Int, _ => return None`). -/
def itemTypeOfChar (c : Char) : Option FormatItemType :=
  if c = 's' then some .Str else if c = 'd' then some .Int else none

/-- `items.last()` is an `Optional` item — the check guarding every `Mandatory`
push in `parse_format_string_ex`. -/
def lastIsOptional (items : List FormatItem) : Bool :=
  match items.getLast? with
  | some it => it.opt = .Optional
  | none => false

/-- The main loop of `utils::fmt_strings::parse_format_string_ex`: consumes the
descriptor byte by byte, accumulating items, returning the item list and the
detected ending (`Closed` unless a final `*` was seen). -/
def parseLoop : Frag → List FormatItem → Option (List FormatItem × FormatEnding)
  | [], items => some (items, .Closed)
  | ['*'], items =>
    -- Asterisk must be the last character and must follow at least one item
    if items = [] then none else some (items, .Open)
  | '%' :: 's' :: '?' :: rest, items => parseLoop rest (items ++ [⟨.Str, .Optional⟩])
  | '%' :: 'd' :: '?' :: rest, items => parseLoop rest (items ++ [⟨.Int, .Optional⟩])
  | '%' :: 's' :: rest, items =>
    -- Mandatory item: rejected if it follows an optional one
    if lastIsOptional items then none else parseLoop rest (items ++ [⟨.Str, .Mandatory⟩])
  | '%' :: 'd' :: rest, items =>
    if lastIsOptional items then none else parseLoop rest (items ++ [⟨.Int, .Mandatory⟩])
  | _, _ =>
    -- `*` before the end, `%` without `s`/`d`, or any other character
    none

/-- `utils::fmt_strings::parse_format_string_ex`: full descriptor compilation,
including the final checks that at least one item exists and that the first
item is not optional. -/
def parse_format_string_ex (fmt : Frag) : Option FormatString :=
  if fmt = [] then none
  else
    match parseLoop fmt [] with
    | none => none
    | some (items, ending) =>
      match items with
      | [] => none
      | first :: _ => if first.opt = .Optional then none else some ⟨items, ending⟩

/-- `items.iter().any(|item| item.1 == Optional)` (used both by
`utils::parse_format_string` and by `parse-procmacro::has_optional_items`). -/
def has_optional_items (items : List FormatItem) : Bool :=
  items.any (fun it => it.opt = .Optional)

/-- `utils::fmt_strings::parse_format_string`: the restricted view of the
extended parser that only accepts all-mandatory, `Closed` descriptors. -/
def parse_format_string (fmt : Frag) : Option (List FormatItemType) :=
  match parse_format_string_ex fmt with
  | none => none
  | some fs =>
    if fs.ending ≠ .Closed then none
    else if has_optional_items fs.items then none
    else some (fs.items.map (fun it => it.ty))

namespace FmtProc

/-- The pairwise scan of `format-procmacro::fmt_strings::parse_format_string`:
the descriptor is read two bytes at a time, `%s`/`%d` only. -/
def parsePairs : Frag → Option (List FormatItemType)
  | [] => some []
  | c1 :: rest =>
    match rest with
    | [] => none
    | c2 :: rest2 =>
      if c1 = '%' then
        match itemTypeOfChar c2 with
        | some ty => (parsePairs rest2).map (fun tys => ty :: tys)
        | none => none
      else none

/-- `format-procmacro::fmt_strings::parse_format_string`: rejects the empty
and odd-length descriptors up front, then scans pairs. -/
def parse_format_string (fmt : Frag) : Option (List FormatItemType) :=
  if fmt.length = 0 ∨ fmt.length % 2 ≠ 0 then none else parsePairs fmt

end FmtProc

/-- A decimal digit character, `'0' + d`. -/
def digitChar (d : Nat) : Char := Char.ofNat (48 + d)

/-- The numeric value of a decimal ASCII digit, `none` for any other character
(the digit test performed by Rust's `i64::from_str`). -/
def digitVal (c : Char) : Option Nat :=
  if '0' ≤ c ∧ c ≤ '9' then some (c.toNat - 48) else none

/-- Accumulating base-10 scan over a digit string. -/
def parseDigitsAux : Frag → Nat → Option Nat
  | [], acc => some acc
  | c :: rest, acc =>
    match digitVal c with
    | some d => parseDigitsAux rest (acc * 10 + d)
    | none => none

/-- Parse a non-empty string of decimal digits. -/
def parseDigits : Frag → Option Nat
  | [] => none
  | l => parseDigitsAux l 0

/-- Magnitude part of `i64::from_str` for a non-negative number:
all digits, value at most `i64::MAX`. -/
def parseUnsigned (s : Frag) : Option Int :=
  match parseDigits s with
  | some n => if n ≤ 9223372036854775807 then some (n : Int) else none
  | none => none

/-- Magnitude part of `i64::from_str` after a `-` sign:
all digits, magnitude at most `2^63` (so `i64::MIN` parses). -/
def parseNegative (s : Frag) : Option Int :=
  match parseDigits s with
  | some n => if n ≤ 9223372036854775808 then some (-(n : Int)) else none
  | none => none

/-- Rust's `str::parse::<i64>()` (`i64::from_str`): optional single `+`/`-`
sign, then one or more decimal digits, rejecting values outside the `i64`
range.  This is the parse used by every generated `Int` slot. -/
def parseI64 : Frag → Option Int
  | [] => none
  | c :: rest =>
    if c = '+' then parseUnsigned rest
    else if c = '-' then parseNegative rest
    else parseUnsigned (c :: rest)

/-- Fuel-indexed decimal rendering of a natural number (the fuel only bounds
the recursion depth; `fuel > n` always suffices). -/
def renderNatAux : Nat → Nat → Frag
  | 0, _ => []
  | fuel + 1, n =>
    if n < 10 then [digitChar n]
    else renderNatAux fuel (n / 10) ++ [digitChar (n % 10)]

/-- Standard decimal rendering of a natural number. -/
def renderNat (n : Nat) : Frag := renderNatAux (n + 1) n

/-- Rust's `format!("{}", i)` on an `i64`: minus sign for negatives, then the
decimal digits of the magnitude. -/
def renderInt (i : Int) : Frag :=
  if i < 0 then '-' :: renderNat i.natAbs else renderNat i.natAbs

/-- A runtime value handed to `frag_format!`: `Str` slots take text
(`AsRef<str>`), `Int` slots take an `i64`. -/
inductive Value where
  | str (s : Frag)
  | int (i : Int)
deriving DecidableEq, Repr

/-- The text a value contributes to the encoded output: strings verbatim,
integers via signed base-10 formatting. -/
def renderValue : Value → Frag
  | .str s => s
  | .int i => renderInt i

/-- The two-character field delimiter. -/
def delim : Frag := ['_', '_']

/-- The errors of `frag_format_impl` that concern the format string and the
argument list (the token-stream errors are outside the embedding). -/
inductive FormatCompileError where
  | BadFormatString
  | ArgCountMismatch
deriving DecidableEq, Repr

/-- Result of expanding `frag_format!`. -/
inductive FmtResult where
  | ok (s : Frag)
  | err (e : FormatCompileError)
deriving DecidableEq, Repr

/-- `format-procmacro::frag_format_impl`: parse the descriptor with the
format-side parser, require one argument per item, and emit
`descriptor __ field_1 __ field_2 …` (the generated code builds the format
string `"<descriptor>__{}__{}…"` and fills it with the rendered arguments). -/
def frag_format (fmt : Frag) (vals : List Value) : FmtResult :=
  match FmtProc.parse_format_string fmt with
  | none => .err .BadFormatString
  | some tys =>
    if tys.length ≠ vals.length then .err .ArgCountMismatch
    else .ok (fmt ++ (vals.map (fun v => delim ++ renderValue v)).flatten)

/-- Rust's `str::split("__")`: split at each leftmost, non-overlapping
occurrence of the two-character delimiter.  Always returns at least one
(possibly empty) fragment. -/
def splitUU : Frag → List Frag
  | [] => [[]]
  | [c] => [[c]]
  | c1 :: c2 :: rest =>
    if c1 = '_' ∧ c2 = '_' then [] :: splitUU rest
    else
      match splitUU (c2 :: rest) with
      | [] => [[c1]]
      | f :: fs => (c1 :: f) :: fs

/-- Mandatory-only rendering of an item type, `%s` or `%d`. -/
def renderType : FormatItemType → Frag
  | .Str => ['%', 's']
  | .Int => ['%', 'd']

/-- `parse-procmacro::rebuild_format_string`: render only the `Mandatory`
items of the schema, each as `%s`/`%d`. -/
def rebuild_format_string (items : List FormatItem) : Frag :=
  ((items.filter (fun it => it.opt = .Mandatory)).map (fun it => renderType it.ty)).flatten

/-- One field of the tuple produced by the code generated by `frag_parse!`:
`String`, `i64`, `Option<String>` or `Option<i64>` according to the slot. -/
inductive DecodedValue where
  | str (s : Frag)
  | int (i : Int)
  | optStr (s : Option Frag)
  | optInt (i : Option Int)
deriving DecidableEq, Repr

/-- One generated slot declaration of `frag_parse!`: consume the next fragment
(if any) and produce the slot's value, a success flag (`false` exactly when the
generated code executes `ok = false;`), and the remaining fragments. -/
def consumeSlot (it : FormatItem) (frags : List Frag) : DecodedValue × Bool × List Frag :=
  match it.opt, it.ty, frags with
  | .Mandatory, .Str, [] => (.str [], false, [])
  | .Mandatory, .Str, v :: rest => (.str v, true, rest)
  | .Mandatory, .Int, [] => (.int 0, false, [])
  | .Mandatory, .Int, v :: rest =>
    match parseI64 v with
    | some n => (.int n, true, rest)
    | none => (.int 0, false, rest)
  | .Optional, .Str, [] => (.optStr none, true, [])
  | .Optional, .Str, v :: rest => (.optStr (some v), true, rest)
  | .Optional, .Int, [] => (.optInt none, true, [])
  | .Optional, .Int, v :: rest =>
    match parseI64 v with
    | some n => (.optInt (some n), true, rest)
    | none => (.optInt (some 0), false, rest)

/-- The sequence of generated slot declarations: values in order, the
conjunction of all success flags, and the fragments left unconsumed. -/
def consumeSlots : List FormatItem → List Frag → List DecodedValue × Bool × List Frag
  | [], frags => ([], true, frags)
  | it :: items, frags =>
    let r1 := consumeSlot it frags
    let r2 := consumeSlots items r1.2.2
    (r1.1 :: r2.1, r1.2.1 && r2.2.1, r2.2.2)

/-- The pattern-fragment check generated by `frag_parse!`: a `starts_with`
test when the ending is `Open` or any item is optional, exact equality
otherwise. -/
def patternCheck (fs : FormatString) (pat : Frag) : Bool :=
  if fs.ending = .Open ∨ has_optional_items fs.items = true then
    (rebuild_format_string fs.items).isPrefixOf pat
  else pat = rebuild_format_string fs.items

/-- The body of the code generated by `frag_parse!`, applied to the fragment
list: check the pattern fragment, consume one fragment per slot, and require
(for a `Closed` ending) that nothing is left. -/
def decodeFrags (fs : FormatString) (frags : List Frag) : Option (List DecodedValue) :=
  match frags with
  | [] => none
  | pat :: dataFrags =>
    if patternCheck fs pat then
      let r := consumeSlots fs.items dataFrags
      let allGood : Bool := (fs.ending = .Open : Bool) || r.2.2.isEmpty
      if r.2.1 && allGood then some r.1 else none
    else none

/-- The full runtime behaviour of the code generated by `frag_parse!` for a
given compiled schema: split the input on `__` and match fragments against
the schema. -/
def frag_parse (fs : FormatString) (input : Frag) : Option (List DecodedValue) :=
  decodeFrags fs (splitUU input)

/-- The `Absent` decoded value of an optional slot. -/
def absentValue : FormatItemType → DecodedValue
  | .Str => .optStr none
  | .Int => .optInt none

/-! ### Specification-side definitions

The definitions below restate properties in the spec's vocabulary; they are
compared against the source-derived functions above. -/

/-- Descriptor rendering of a single item: `%s`/`%d`, with a trailing `?`
when the item is optional. -/
def renderItem (it : FormatItem) : Frag :=
  renderType it.ty ++ (if it.opt = .Optional then ['?'] else [])

/-- Descriptor rendering of an item list. -/
def renderItems (items : List FormatItem) : Frag :=
  (items.map renderItem).flatten

/-- The descriptor characters contributed by the ending: `*` iff `Open`. -/
def endFrag : FormatEnding → Frag
  | .Closed => []
  | .Open => ['*']

/-- The canonical descriptor string of a schema. -/
def renderDescriptor (fs : FormatString) : Frag :=
  renderItems fs.items ++ endFrag fs.ending

/-- The schema invariants stated by the spec: at least one item, the first
item mandatory, and the optional items forming a contiguous suffix. -/
def validSchema (fs : FormatString) : Prop :=
  (∃ first rest, fs.items = first :: rest ∧ first.opt = .Mandatory) ∧
  (∃ m o, fs.items = m ++ o ∧ (∀ it ∈ m, it.opt = .Mandatory) ∧ ∀ it ∈ o, it.opt = .Optional)

/-- Mandatory-only rendering of a type list (the encoder prefix for an
all-mandatory schema). -/
def renderTys (tys : List FormatItemType) : Frag :=
  (tys.map renderType).flatten

/-- Wrap a type as a mandatory schema item. -/
def asMandatory (t : FormatItemType) : FormatItem := ⟨t, .Mandatory⟩

/-- The all-mandatory `Closed` schema over a type list. -/
def allMandatorySchema (tys : List FormatItemType) : FormatString :=
  ⟨tys.map asMandatory, .Closed⟩

/-- The decoded field corresponding to an encoded value in a mandatory slot. -/
def embedValue : Value → DecodedValue
  | .str s => .str s
  | .int i => .int i

/-- A value tuple matches a declared type list: `Str` slots hold text, `Int`
slots hold signed 64-bit integers. -/
def typesMatch : List FormatItemType → List Value → Bool
  | [], [] => true
  | .Str :: tys, .str _ :: vs => typesMatch tys vs
  | .Int :: tys, .int i :: vs =>
    (decide (-9223372036854775808 ≤ i) && decide (i < 9223372036854775808)) && typesMatch tys vs
  | _, _ => false

/-- The string contains the delimiter `__` as a substring. -/
def hasUU : Frag → Bool
  | [] => false
  | [_] => false
  | c1 :: c2 :: rest => (c1 = '_' && c2 = '_') || hasUU (c2 :: rest)

/-- A value is safe for the unescaped encoding: its text neither contains the
delimiter `__` nor ends with `_` (integers always render safely). -/
def strSafeVal : Value → Bool
  | .str s => !hasUU s && !(s.getLast? = some '_' : Bool)
  | .int _ => true

/-- All values of a tuple are delimiter-safe. -/
def strSafe (vals : List Value) : Bool := vals.all strSafeVal

/-- The delimited fields appended after the prefix by the encoder. -/
def fieldsOf (vals : List Value) : Frag :=
  (vals.map (fun v => delim ++ renderValue v)).flatten

/-- The encoded output for an all-mandatory descriptor and a value tuple. -/
def encodedOf (tys : List FormatItemType) (vals : List Value) : Frag :=
  renderTys tys ++ fieldsOf vals

/-- Spec phrasing of "every Mandatory slot receives a data fragment": slots
are filled left to right, so the slots beyond the available fragments must all
be optional. -/
def mandatoryCovered (items : List FormatItem) (ds : List Frag) : Prop :=
  ∀ it ∈ items.drop ds.length, it.opt = .Optional

/-- Spec phrasing of "every Int slot that receives a fragment parses as a
base-10 signed 64-bit integer": slot `j` receives fragment `j`. -/
def intSlotsParse (items : List FormatItem) (ds : List Frag) : Prop :=
  ∀ p ∈ items.zip ds, p.1.ty = .Int → (parseI64 p.2).isSome = true

/-- Spec phrasing of the pattern-fragment check. -/
def patternOk (fs : FormatString) (pat : Frag) : Prop :=
  if fs.ending = .Open ∨ has_optional_items fs.items = true then
    rebuild_format_string fs.items <+: pat
  else pat = rebuild_format_string fs.items

/-- Spec phrasing of the tail check: leftovers are only permitted with an
`Open` ending. -/
def tailOk (fs : FormatString) (ds : List Frag) : Prop :=
  fs.ending = .Open ∨ ds.length ≤ fs.items.length

/-- Restriction of an extended-parser result to the all-mandatory `Closed`
view (the filter applied by `utils::parse_format_string`). -/
def toClosedMandatory : Option (List FormatItem × FormatEnding) → Option (List FormatItemType)
  | some (items, .Closed) =>
    if has_optional_items items then none else some (items.map (fun it => it.ty))
  | _ => none



/-- The value produced by a slot that receives fragment `v` (an unparseable
`Int` fragment yields the placeholder `0`). -/
def slotVal (it : FormatItem) (v : Frag) : DecodedValue :=
  match it.opt, it.ty with
  | .Mandatory, .Str => .str v
  | .Mandatory, .Int => .int ((parseI64 v).getD 0)
  | .Optional, .Str => .optStr (some v)
  | .Optional, .Int => .optInt (some ((parseI64 v).getD 0))

/-- The success flag of a slot that receives fragment `v`: `Str` slots always
succeed, `Int` slots succeed iff the fragment parses. -/
def slotOk (it : FormatItem) (v : Frag) : Bool :=
  decide (it.ty = .Str) || (parseI64 v).isSome

/-! ## Decimal parsing and rendering -/

theorem digitVal_digitChar (d : Nat) (hd : d < 10) : digitVal (digitChar d) = some d := by
  interval_cases d <;> decide

theorem digitChar_ge (d : Nat) (hd : d < 10) : '0' ≤ digitChar d := by
  interval_cases d <;> decide

theorem digitChar_le (d : Nat) (hd : d < 10) : digitChar d ≤ '9' := by
  interval_cases d <;> decide

theorem parseDigitsAux_append (l1 l2 : Frag) (acc : Nat) :
    parseDigitsAux (l1 ++ l2) acc =
      (parseDigitsAux l1 acc).bind (fun m => parseDigitsAux l2 m) := by
  induction l1 generalizing acc with
  | nil => simp [parseDigitsAux]
  | cons c rest ih =>
    simp only [List.cons_append, parseDigitsAux]
    cases digitVal c <;> simp [ih]

theorem parseDigitsAux_renderNatAux (fuel n : Nat) (h : n < fuel) :
    parseDigitsAux (renderNatAux fuel n) 0 = some n := by
  induction fuel generalizing n with
  | zero => omega
  | succ fuel ih =>
    by_cases h10 : n < 10
    · simp [renderNatAux, h10, parseDigitsAux, digitVal_digitChar n h10]
    · have hdiv : n / 10 < fuel := by
        have : n / 10 < n := Nat.div_lt_self (by omega) (by omega)
        omega
      have hmod : n % 10 < 10 := Nat.mod_lt _ (by omega)
      simp only [renderNatAux, if_neg h10, parseDigitsAux_append, ih (n / 10) hdiv,
        Option.bind_some, parseDigitsAux, digitVal_digitChar (n % 10) hmod]
      simp only [Option.some_bind]
      congr 1
      omega

theorem renderNatAux_ne_nil (fuel n : Nat) (h : n < fuel) : renderNatAux fuel n ≠ [] := by
  cases fuel with
  | zero => omega
  | succ fuel =>
    by_cases h10 : n < 10 <;> simp [renderNatAux, h10]

theorem mem_renderNatAux_digit (fuel n : Nat) (c : Char) (hc : c ∈ renderNatAux fuel n) :
    '0' ≤ c ∧ c ≤ '9' := by
  induction fuel generalizing n with
  | zero => simp [renderNatAux] at hc
  | succ fuel ih =>
    by_cases h10 : n < 10
    · simp [renderNatAux, h10] at hc
      subst hc
      exact ⟨digitChar_ge n h10, digitChar_le n h10⟩
    · simp only [renderNatAux, if_neg h10, List.mem_append, List.mem_singleton] at hc
      rcases hc with hc | hc
      · exact ih _ hc
      · have hmod : n % 10 < 10 := Nat.mod_lt _ (by omega)
        subst hc
        exact ⟨digitChar_ge _ hmod, digitChar_le _ hmod⟩

theorem parseDigits_renderNat (n : Nat) : parseDigits (renderNat n) = some n := by
  have hne := renderNatAux_ne_nil (n + 1) n (by omega)
  have haux := parseDigitsAux_renderNatAux (n + 1) n (by omega)
  unfold renderNat at hne haux ⊢
  cases hrw : renderNatAux (n + 1) n with
  | nil => exact absurd hrw hne
  | cons c rest => rw [hrw] at haux; simpa [parseDigits] using haux

theorem mem_renderNat_digit (n : Nat) (c : Char) (hc : c ∈ renderNat n) :
    '0' ≤ c ∧ c ≤ '9' :=
  mem_renderNatAux_digit (n + 1) n c hc

theorem renderNat_head_digit (n : Nat) :
    ∃ c rest, renderNat n = c :: rest ∧ '0' ≤ c ∧ c ≤ '9' := by
  cases hrw : renderNat n with
  | nil => exact absurd hrw (renderNatAux_ne_nil (n + 1) n (by omega))
  | cons c rest =>
    have hc : c ∈ renderNat n := by rw [hrw]; exact List.mem_cons_self _ _
    exact ⟨c, rest, rfl, mem_renderNat_digit n c hc⟩

theorem parseUnsigned_renderNat (n : Nat) (h : n ≤ 9223372036854775807) :
    parseUnsigned (renderNat n) = some (n : Int) := by
  simp [parseUnsigned, parseDigits_renderNat, h]

/-- Round trip of the standard `i64` formatting and parsing: any value in the
`i64` range parses back to itself. -/
theorem parseI64_renderInt (i : Int) (h1 : -9223372036854775808 ≤ i)
    (h2 : i < 9223372036854775808) : parseI64 (renderInt i) = some i := by
  by_cases hneg : i < 0
  · have habs : (i.natAbs : Int) = -i := Int.ofNat_natAbs_of_nonpos (le_of_lt hneg)
    have hbound : i.natAbs ≤ 9223372036854775808 := by
      have hi : (i.natAbs : Int) ≤ 9223372036854775808 := by rw [habs]; omega
      exact_mod_cast hi
    have hstep : parseI64 (renderInt i) = parseNegative (renderNat i.natAbs) := by
      simp [renderInt, if_pos hneg, parseI64]
    rw [hstep]
    unfold parseNegative
    rw [parseDigits_renderNat]
    simp only [if_pos hbound, habs, neg_neg]
  · have habs : (i.natAbs : Int) = i := Int.natAbs_of_nonneg (not_lt.mp hneg)
    have hbound : i.natAbs ≤ 9223372036854775807 := by
      have hi : (i.natAbs : Int) ≤ 9223372036854775807 := by rw [habs]; omega
      exact_mod_cast hi
    obtain ⟨c, rest, hrw, hge, hle⟩ := renderNat_head_digit i.natAbs
    have hcp : c ≠ '+' := by
      intro hc; subst hc; exact absurd hge (by decide)
    have hcm : c ≠ '-' := by
      intro hc; subst hc; exact absurd hge (by decide)
    simp only [renderInt, if_neg hneg]
    rw [hrw]
    simp only [parseI64, if_neg hcp, if_neg hcm]
    rw [← hrw, parseUnsigned_renderNat _ hbound, habs]

/-! ## Splitting on the delimiter -/

theorem splitUU_ne_nil : ∀ (l : Frag), splitUU l ≠ []
  | [] => by simp [splitUU]
  | [c] => by simp [splitUU]
  | c1 :: c2 :: rest => by
    by_cases h : c1 = '_' ∧ c2 = '_'
    · simp [splitUU, h]
    · simp only [splitUU, if_neg h]
      cases splitUU (c2 :: rest) <;> simp

theorem hasUU_cons_false (c1 c2 : Char) (rest : Frag) (h : hasUU (c1 :: c2 :: rest) = false) :
    ¬(c1 = '_' ∧ c2 = '_') ∧ hasUU (c2 :: rest) = false := by
  simp only [hasUU, Bool.or_eq_false_iff, Bool.and_eq_false_iff] at h
  constructor
  · rintro ⟨rfl, rfl⟩
    rcases h.1 with h1 | h1 <;> simp at h1
  · exact h.2

theorem splitUU_of_no_delim : ∀ (l : Frag), hasUU l = false → splitUU l = [l]
  | [], _ => by simp [splitUU]
  | [c], _ => by simp [splitUU]
  | c1 :: c2 :: rest, h => by
    obtain ⟨hne, hrest⟩ := hasUU_cons_false c1 c2 rest h
    have ih := splitUU_of_no_delim (c2 :: rest) hrest
    simp only [splitUU, if_neg hne, ih]

theorem splitUU_append_delim : ∀ (f rest : Frag), hasUU f = false → f.getLast? ≠ some '_' →
    splitUU (f ++ '_' :: '_' :: rest) = f :: splitUU rest
  | [], rest, _, _ => by
    simp only [List.nil_append]
    simp [splitUU]
  | [c], rest, _, hlast => by
    have hc : c ≠ '_' := by
      intro hc
      exact hlast (by simp [hc])
    simp [splitUU, hc]
  | c1 :: c2 :: f2, rest, h, hlast => by
    obtain ⟨hne, hrest⟩ := hasUU_cons_false c1 c2 f2 h
    have hlast2 : (c2 :: f2).getLast? ≠ some '_' := by
      rwa [List.getLast?_cons_cons] at hlast
    have ih := splitUU_append_delim (c2 :: f2) rest hrest hlast2
    simp only [List.cons_append] at ih ⊢
    rw [splitUU, if_neg hne, ih]

theorem hasUU_of_not_mem : ∀ (l : Frag), '_' ∉ l → hasUU l = false
  | [], _ => rfl
  | [_], _ => rfl
  | c1 :: c2 :: rest, h => by
    have h1 : c1 ≠ '_' := fun hc => h (by simp [hc])
    have h2 : '_' ∉ c2 :: rest := fun hc => h (List.mem_cons_of_mem _ hc)
    simp only [hasUU, hasUU_of_not_mem (c2 :: rest) h2, Bool.or_false,
      Bool.and_eq_false_iff]
    left
    exact decide_eq_false h1

theorem getLast?_ne_underscore_of_not_mem (l : Frag) (h : '_' ∉ l) :
    l.getLast? ≠ some '_' := by
  intro hc
  obtain ⟨hne, heq⟩ := List.mem_getLast?_eq_getLast (x := '_') (l := l) hc
  exact h (heq ▸ List.getLast_mem hne)

theorem mem_renderInt_char (i : Int) (c : Char) (hc : c ∈ renderInt i) :
    c = '-' ∨ ('0' ≤ c ∧ c ≤ '9') := by
  unfold renderInt at hc
  split at hc
  · rcases List.mem_cons.mp hc with rfl | hc
    · exact Or.inl rfl
    · exact Or.inr (mem_renderNat_digit _ _ hc)
  · exact Or.inr (mem_renderNat_digit _ _ hc)

theorem not_mem_renderInt_underscore (i : Int) : '_' ∉ renderInt i := by
  intro hc
  rcases mem_renderInt_char i '_' hc with h | h
  · exact absurd h (by decide)
  · exact absurd h.2 (by decide)

theorem mem_renderType_char (t : FormatItemType) (c : Char) (hc : c ∈ renderType t) :
    c = '%' ∨ c = 's' ∨ c = 'd' := by
  cases t <;> simp [renderType] at hc <;> tauto

theorem not_mem_renderTys_underscore (tys : List FormatItemType) : '_' ∉ renderTys tys := by
  intro hc
  induction tys with
  | nil => simp [renderTys] at hc
  | cons t tys ih =>
    have : renderTys (t :: tys) = renderType t ++ renderTys tys := by
      simp [renderTys]
    rw [this, List.mem_append] at hc
    rcases hc with hc | hc
    · rcases mem_renderType_char t '_' hc with h | h | h <;> exact absurd h (by decide)
    · exact ih hc

/-- A value rendered into a field is delimiter-safe as soon as the value is:
integers always are, strings by assumption. -/
theorem renderValue_clean (v : Value) (h : strSafeVal v = true) :
    hasUU (renderValue v) = false ∧ (renderValue v).getLast? ≠ some '_' := by
  cases v with
  | str s =>
    simp only [strSafeVal, Bool.and_eq_true, Bool.not_eq_true'] at h
    refine ⟨h.1, ?_⟩
    intro hc
    have h2 := h.2
    rw [show renderValue (Value.str s) = s from rfl] at hc
    rw [hc] at h2
    simp at h2
  | int i =>
    exact ⟨hasUU_of_not_mem _ (not_mem_renderInt_underscore i),
      getLast?_ne_underscore_of_not_mem _ (not_mem_renderInt_underscore i)⟩

/-- Splitting the encoded string: a delimiter-free head followed by
delimiter-prefixed safe fields splits back into the head and the fields. -/
theorem splitUU_head_fields : ∀ (fields : List Frag) (head : Frag),
    hasUU head = false → head.getLast? ≠ some '_' →
    (∀ f ∈ fields, hasUU f = false ∧ f.getLast? ≠ some '_') →
    splitUU (head ++ (fields.map (fun f => delim ++ f)).flatten) = head :: fields
  | [], head, h1, h2, _ => by
    simp [splitUU_of_no_delim head h1]
  | f :: fs, head, h1, h2, hf => by
    have hrw : head ++ ((f :: fs).map (fun f => delim ++ f)).flatten =
        head ++ '_' :: '_' :: (f ++ (fs.map (fun f => delim ++ f)).flatten) := by
      simp [delim]
    rw [hrw, splitUU_append_delim head _ h1 h2]
    have hfm := hf f (List.mem_cons_self _ _)
    have ih := splitUU_head_fields fs f hfm.1 hfm.2
      (fun g hg => hf g (List.mem_cons_of_mem _ hg))
    rw [ih]

/-! ## Slot consumption -/

theorem consumeSlot_cons (it : FormatItem) (v : Frag) (rest : List Frag) :
    consumeSlot it (v :: rest) = (slotVal it v, slotOk it v, rest) := by
  rcases it with ⟨ty, opt⟩
  cases ty <;> cases opt <;>
    simp only [consumeSlot, slotVal, slotOk] <;>
    cases hp : parseI64 v <;> simp [hp]

theorem consumeSlot_nil (it : FormatItem) :
    consumeSlot it [] =
      ((if it.opt = .Optional then absentValue it.ty else
        match it.ty with | .Str => .str [] | .Int => .int 0),
       decide (it.opt = .Optional), []) := by
  rcases it with ⟨ty, opt⟩
  cases ty <;> cases opt <;> simp [consumeSlot, absentValue]

theorem consumeSlots_rest (items : List FormatItem) (ds : List Frag) :
    (consumeSlots items ds).2.2 = ds.drop items.length := by
  induction items generalizing ds with
  | nil => simp [consumeSlots]
  | cons it items ih =>
    cases ds with
    | nil =>
      simp only [consumeSlots, consumeSlot_nil, ih]
      simp
    | cons d ds =>
      simp only [consumeSlots, consumeSlot_cons, ih]
      simp

theorem consumeSlots_ok_iff (items : List FormatItem) (ds : List Frag) :
    (consumeSlots items ds).2.1 = true ↔
      mandatoryCovered items ds ∧ intSlotsParse items ds := by
  induction items generalizing ds with
  | nil =>
    simp [consumeSlots, mandatoryCovered, intSlotsParse]
  | cons it items ih =>
    cases ds with
    | nil =>
      simp only [consumeSlots, consumeSlot_nil, Bool.and_eq_true, ih,
        mandatoryCovered, intSlotsParse]
      simp only [List.length_nil, List.drop_zero, List.zip_nil_right,
        List.not_mem_nil, false_implies, implies_true, and_true,
        List.forall_mem_cons, decide_eq_true_eq]
    | cons d ds =>
      simp only [consumeSlots, consumeSlot_cons, Bool.and_eq_true, ih,
        mandatoryCovered, intSlotsParse]
      simp only [List.length_cons, List.drop_succ_cons, List.zip_cons_cons,
        List.forall_mem_cons, slotOk, Bool.or_eq_true, decide_eq_true_eq]
      cases hty : it.ty <;> first | (simp [hty]; tauto) | simp [hty]

theorem consumeSlots_append (items : List FormatItem) (ds extra : List Frag)
    (h : items.length ≤ ds.length) :
    consumeSlots items (ds ++ extra) =
      ((consumeSlots items ds).1, (consumeSlots items ds).2.1,
        (consumeSlots items ds).2.2 ++ extra) := by
  induction items generalizing ds with
  | nil => simp [consumeSlots]
  | cons it items ih =>
    cases ds with
    | nil => simp at h
    | cons d ds =>
      have h2 : items.length ≤ ds.length := by
        simpa using Nat.le_of_succ_le_succ (by simpa using h)
      simp only [List.cons_append, consumeSlots, consumeSlot_cons, ih ds h2]

theorem consumeSlots_exact : ∀ (tys : List FormatItemType) (vals : List Value),
    typesMatch tys vals = true →
    consumeSlots (tys.map asMandatory) (vals.map renderValue) =
      (vals.map embedValue, true, [])
  | [], [], _ => by simp [consumeSlots]
  | .Str :: tys, .str s :: vals, h => by
    have h2 : typesMatch tys vals = true := by simpa [typesMatch] using h
    have ih := consumeSlots_exact tys vals h2
    simp [consumeSlots, consumeSlot, asMandatory, embedValue, renderValue, ih]
  | .Int :: tys, .int i :: vals, h => by
    simp only [typesMatch, Bool.and_eq_true, decide_eq_true_eq] at h
    have ih := consumeSlots_exact tys vals h.2
    have hp := parseI64_renderInt i h.1.1 h.1.2
    simp [consumeSlots, consumeSlot, asMandatory, embedValue, renderValue, hp, ih]
  | .Str :: _, .int _ :: _, h => Bool.noConfusion h
  | .Int :: _, .str _ :: _, h => Bool.noConfusion h
  | [], _ :: _, h => Bool.noConfusion h
  | .Str :: _, [], h => Bool.noConfusion h
  | .Int :: _, [], h => Bool.noConfusion h

theorem typesMatch_length : ∀ (tys : List FormatItemType) (vals : List Value),
    typesMatch tys vals = true → tys.length = vals.length
  | [], [], _ => rfl
  | .Str :: tys, .str s :: vals, h => by
    have ih := typesMatch_length tys vals (by simpa [typesMatch] using h)
    simp [ih]
  | .Int :: tys, .int i :: vals, h => by
    simp only [typesMatch, Bool.and_eq_true] at h
    have ih := typesMatch_length tys vals h.2
    simp [ih]
  | .Str :: _, .int _ :: _, h => Bool.noConfusion h
  | .Int :: _, .str _ :: _, h => Bool.noConfusion h
  | [], _ :: _, h => Bool.noConfusion h
  | .Str :: _, [], h => Bool.noConfusion h
  | .Int :: _, [], h => Bool.noConfusion h

/-! ## Pattern check, tail check, and the decode characterization -/

theorem patternCheck_iff (fs : FormatString) (p : Frag) :
    patternCheck fs p = true ↔ patternOk fs p := by
  unfold patternCheck patternOk
  by_cases h : fs.ending = .Open ∨ has_optional_items fs.items = true
  · simp only [if_pos h, List.isPrefixOf_iff_prefix]
  · simp only [if_neg h, decide_eq_true_eq]

theorem rebuild_allMandatory (tys : List FormatItemType) :
    rebuild_format_string (tys.map asMandatory) = renderTys tys := by
  induction tys with
  | nil => rfl
  | cons t tys ih =>
    simp only [rebuild_format_string, asMandatory, List.map_cons, List.filter_cons] at ih ⊢
    simp only [decide_True, if_true] at ih ⊢
    simp only [List.map_cons, List.flatten_cons]
    rw [show renderTys (t :: tys) = renderType t ++ renderTys tys from by simp [renderTys]]
    simp [ih]

theorem has_optional_map_asMandatory (tys : List FormatItemType) :
    has_optional_items (tys.map asMandatory) = false := by
  simp [has_optional_items, asMandatory, List.any_map, Function.comp]

theorem isSome_if_some {α : Type} (b : Bool) (x : α) :
    (if b = true then some x else none).isSome = b := by
  cases b <;> simp

/-- Full characterization of a decode run on a split fragment list: success is
equivalent to the pattern check, mandatory coverage, integer parsing, and the
tail condition. -/
theorem decodeFrags_isSome_iff (fs : FormatString) (pat : Frag) (ds : List Frag) :
    (decodeFrags fs (pat :: ds)).isSome = true ↔
      (patternOk fs pat ∧ mandatoryCovered fs.items ds ∧
        intSlotsParse fs.items ds ∧ tailOk fs ds) := by
  simp only [decodeFrags]
  by_cases hp : patternCheck fs pat = true
  · rw [if_pos hp]
    rw [patternCheck_iff] at hp
    simp only [hp, true_and]
    rw [isSome_if_some]
    rw [Bool.and_eq_true, Bool.or_eq_true, consumeSlots_ok_iff, consumeSlots_rest]
    simp only [tailOk, List.isEmpty_iff, List.drop_eq_nil_iff, decide_eq_true_eq,
      and_assoc]
  · rw [if_neg hp]
    rw [patternCheck_iff] at hp
    simp [hp]

/-- With a `Closed` ending, a surplus data fragment forces a decode failure. -/
theorem decodeFrags_closed_extra (fs : FormatString) (pat : Frag) (ds : List Frag)
    (hend : fs.ending = .Closed) (hlen : fs.items.length < ds.length) :
    decodeFrags fs (pat :: ds) = none := by
  simp only [decodeFrags]
  by_cases hp : patternCheck fs pat = true
  · rw [if_pos hp]
    have hne : ds.drop fs.items.length ≠ [] := by
      rw [ne_eq, List.drop_eq_nil_iff]
      omega
    have hall : ((fs.ending = .Open : Bool) ||
        (consumeSlots fs.items ds).2.2.isEmpty) = false := by
      rw [consumeSlots_rest]
      simp only [hend, Bool.or_eq_false_iff]
      refine ⟨by decide, ?_⟩
      cases hdrop : ds.drop fs.items.length with
      | nil => exact absurd hdrop hne
      | cons a l => simp
    rw [hall]
    simp
  · rw [if_neg hp]

/-- With an `Open` ending, fragments beyond the declared slots do not affect
the result at all. -/
theorem decodeFrags_open_extra (fs : FormatString) (pat : Frag) (ds extra : List Frag)
    (hend : fs.ending = .Open) (hlen : fs.items.length ≤ ds.length) :
    decodeFrags fs (pat :: (ds ++ extra)) = decodeFrags fs (pat :: ds) := by
  simp only [decodeFrags]
  by_cases hp : patternCheck fs pat = true
  · rw [if_pos hp, if_pos hp]
    rw [consumeSlots_append fs.items ds extra hlen]
    simp [hend]
  · rw [if_neg hp, if_neg hp]

/-! ## Descriptor parser: soundness of `parseLoop` -/

theorem lastIsOptional_append_mandatory (acc : List FormatItem) (ty : FormatItemType) :
    lastIsOptional (acc ++ [⟨ty, .Mandatory⟩]) = false := by
  simp [lastIsOptional, List.getLast?_concat]

theorem lastIsOptional_append_opt (m o : List FormatItem) (hne : o ≠ [])
    (ho : ∀ it ∈ o, it.opt = .Optional) : lastIsOptional (m ++ o) = true := by
  have hlast : (m ++ o).getLast? = o.getLast? := List.getLast?_append_of_ne_nil _ hne
  have hsome : ∃ x, o.getLast? = some x := by
    cases ho2 : o.getLast? with
    | none => exact absurd (List.getLast?_eq_none_iff.mp ho2) hne
    | some x => exact ⟨x, rfl⟩
  obtain ⟨x, hx⟩ := hsome
  have hmem : x ∈ o := by
    obtain ⟨hne2, heq⟩ := List.mem_getLast?_eq_getLast (x := x) (l := o) hx
    exact heq ▸ List.getLast_mem hne2
  simp [lastIsOptional, hlast, hx, ho x hmem]

theorem renderItems_cons (it : FormatItem) (l : List FormatItem) :
    renderItems (it :: l) = renderItem it ++ renderItems l := by
  simp [renderItems]

theorem renderItems_head_ne_q (l : List FormatItem) (e : FormatEnding) :
    (renderItems l ++ endFrag e).head? ≠ some '?' := by
  cases l with
  | nil =>
    cases e <;> simp [renderItems, endFrag]
  | cons it l =>
    rcases it with ⟨ty, opt⟩
    cases ty <;> cases opt <;>
      simp [renderItems_cons, renderItem, renderType]

theorem parseLoop_step_s (rest : Frag) (acc : List FormatItem)
    (h : rest.head? ≠ some '?') :
    parseLoop ('%' :: 's' :: rest) acc =
      if lastIsOptional acc then none
      else parseLoop rest (acc ++ [⟨.Str, .Mandatory⟩]) := by
  cases rest with
  | nil => simp [parseLoop]
  | cons c3 r =>
    have hc : ¬(c3 = '?') := by
      intro h2
      exact h (by simp [h2])
    simp [parseLoop, hc]

theorem parseLoop_step_d (rest : Frag) (acc : List FormatItem)
    (h : rest.head? ≠ some '?') :
    parseLoop ('%' :: 'd' :: rest) acc =
      if lastIsOptional acc then none
      else parseLoop rest (acc ++ [⟨.Int, .Mandatory⟩]) := by
  cases rest with
  | nil => simp [parseLoop]
  | cons c3 r =>
    have hc : ¬(c3 = '?') := by
      intro h2
      exact h (by simp [h2])
    simp [parseLoop, hc]

/-- Soundness of the parser loop: a successful run appends newly parsed items,
the input is exactly the rendering of the new items plus the ending marker,
and an `Open` ending guarantees a non-empty item list. -/
theorem parseLoop_sound (fmt : Frag) (acc : List FormatItem) :
    ∀ items ending, parseLoop fmt acc = some (items, ending) →
      ∃ nw, items = acc ++ nw ∧ fmt = renderItems nw ++ endFrag ending ∧
        (ending = .Open → items ≠ []) := by
  induction fmt, acc using parseLoop.induct with
  | case1 acc =>
    intro items ending h
    simp only [parseLoop, Option.some_inj, Prod.mk.injEq] at h
    obtain ⟨rfl, rfl⟩ := h
    exact ⟨[], by simp [renderItems, endFrag], by simp [renderItems, endFrag], by simp⟩
  | case2 =>
    intro items ending h
    simp [parseLoop] at h
  | case3 acc hne =>
    intro items ending h
    simp only [parseLoop, if_neg hne, Option.some_inj, Prod.mk.injEq] at h
    obtain ⟨rfl, rfl⟩ := h
    exact ⟨[], by simp, by simp [renderItems, endFrag], fun _ => hne⟩
  | case4 rest acc ih =>
    intro items ending h
    rw [show parseLoop ('%' :: 's' :: '?' :: rest) acc =
      parseLoop rest (acc ++ [⟨.Str, .Optional⟩]) from by simp [parseLoop]] at h
    obtain ⟨nw, hitems, hfmt, hopen⟩ := ih items ending h
    refine ⟨⟨.Str, .Optional⟩ :: nw, by simp [hitems], ?_, hopen⟩
    rw [renderItems_cons, hfmt]
    simp [renderItem, renderType]
  | case5 rest acc ih =>
    intro items ending h
    rw [show parseLoop ('%' :: 'd' :: '?' :: rest) acc =
      parseLoop rest (acc ++ [⟨.Int, .Optional⟩]) from by simp [parseLoop]] at h
    obtain ⟨nw, hitems, hfmt, hopen⟩ := ih items ending h
    refine ⟨⟨.Int, .Optional⟩ :: nw, by simp [hitems], ?_, hopen⟩
    rw [renderItems_cons, hfmt]
    simp [renderItem, renderType]
  | case6 rest acc hq hlast =>
    intro items ending h
    have hh : rest.head? ≠ some '?' := by
      cases rest with
      | nil => simp
      | cons c r =>
        intro hc
        simp only [List.head?_cons, Option.some_inj] at hc
        exact hq r (by rw [hc])
    rw [parseLoop_step_s rest acc hh, if_pos hlast] at h
    exact absurd h (by simp)
  | case7 rest acc hq hlast ih =>
    intro items ending h
    have hh : rest.head? ≠ some '?' := by
      cases rest with
      | nil => simp
      | cons c r =>
        intro hc
        simp only [List.head?_cons, Option.some_inj] at hc
        exact hq r (by rw [hc])
    rw [parseLoop_step_s rest acc hh, if_neg hlast] at h
    obtain ⟨nw, hitems, hfmt, hopen⟩ := ih items ending h
    refine ⟨⟨.Str, .Mandatory⟩ :: nw, by simp [hitems], ?_, hopen⟩
    rw [renderItems_cons, hfmt]
    simp [renderItem, renderType]
  | case8 rest acc hq hlast =>
    intro items ending h
    have hh : rest.head? ≠ some '?' := by
      cases rest with
      | nil => simp
      | cons c r =>
        intro hc
        simp only [List.head?_cons, Option.some_inj] at hc
        exact hq r (by rw [hc])
    rw [parseLoop_step_d rest acc hh, if_pos hlast] at h
    exact absurd h (by simp)
  | case9 rest acc hq hlast ih =>
    intro items ending h
    have hh : rest.head? ≠ some '?' := by
      cases rest with
      | nil => simp
      | cons c r =>
        intro hc
        simp only [List.head?_cons, Option.some_inj] at hc
        exact hq r (by rw [hc])
    rw [parseLoop_step_d rest acc hh, if_neg hlast] at h
    obtain ⟨nw, hitems, hfmt, hopen⟩ := ih items ending h
    refine ⟨⟨.Int, .Mandatory⟩ :: nw, by simp [hitems], ?_, hopen⟩
    rw [renderItems_cons, hfmt]
    simp [renderItem, renderType]
  | case10 t x h1 h2 h3 h4 h5 h6 =>
    intro items ending h
    rw [show parseLoop t x = none from by
      rw [parseLoop.eq_def]
      split
      all_goals first
        | rfl
        | exact absurd rfl h1
        | exact absurd rfl h2
        | exact (h3 _ rfl).elim
        | exact (h4 _ rfl).elim
        | exact (h5 _ rfl).elim
        | exact (h6 _ rfl).elim] at h
    exact absurd h (by simp)

theorem head_ne_q_of_no_q (rest : Frag) (hq : ∀ r, rest = '?' :: r → False) :
    rest.head? ≠ some '?' := by
  cases rest with
  | nil => simp
  | cons c r =>
    intro hc
    simp only [List.head?_cons, Option.some_inj] at hc
    exact hq r (by rw [hc])

/-- Invariant of the parser loop: starting from an accumulator that splits into
mandatory items followed by optional ones, any successful result splits the
same way (the optional items form a contiguous suffix). -/
theorem parseLoop_suffix (fmt : Frag) (acc : List FormatItem) :
    ∀ items ending m o, parseLoop fmt acc = some (items, ending) →
      acc = m ++ o → (∀ it ∈ m, it.opt = .Mandatory) → (∀ it ∈ o, it.opt = .Optional) →
      ∃ m2 o2, items = m2 ++ o2 ∧ (∀ it ∈ m2, it.opt = .Mandatory) ∧
        ∀ it ∈ o2, it.opt = .Optional := by
  induction fmt, acc using parseLoop.induct with
  | case1 acc =>
    intro items ending m o h hacc hm ho
    simp only [parseLoop, Option.some_inj, Prod.mk.injEq] at h
    exact ⟨m, o, h.1.symm.trans hacc, hm, ho⟩
  | case2 =>
    intro items ending m o h hacc hm ho
    simp [parseLoop] at h
  | case3 acc hne =>
    intro items ending m o h hacc hm ho
    simp only [parseLoop, if_neg hne, Option.some_inj, Prod.mk.injEq] at h
    exact ⟨m, o, h.1.symm.trans hacc, hm, ho⟩
  | case4 rest acc ih =>
    intro items ending m o h hacc hm ho
    rw [show parseLoop ('%' :: 's' :: '?' :: rest) acc =
      parseLoop rest (acc ++ [⟨.Str, .Optional⟩]) from by simp [parseLoop]] at h
    refine ih items ending m (o ++ [⟨.Str, .Optional⟩]) h
      (by rw [hacc, List.append_assoc]) hm ?_
    intro it hit
    rcases List.mem_append.mp hit with h2 | h2
    · exact ho it h2
    · simp only [List.mem_singleton] at h2
      rw [h2]
  | case5 rest acc ih =>
    intro items ending m o h hacc hm ho
    rw [show parseLoop ('%' :: 'd' :: '?' :: rest) acc =
      parseLoop rest (acc ++ [⟨.Int, .Optional⟩]) from by simp [parseLoop]] at h
    refine ih items ending m (o ++ [⟨.Int, .Optional⟩]) h
      (by rw [hacc, List.append_assoc]) hm ?_
    intro it hit
    rcases List.mem_append.mp hit with h2 | h2
    · exact ho it h2
    · simp only [List.mem_singleton] at h2
      rw [h2]
  | case6 rest acc hq hlast =>
    intro items ending m o h hacc hm ho
    rw [parseLoop_step_s rest acc (head_ne_q_of_no_q rest hq), if_pos hlast] at h
    exact absurd h (by simp)
  | case7 rest acc hq hlast ih =>
    intro items ending m o h hacc hm ho
    rw [parseLoop_step_s rest acc (head_ne_q_of_no_q rest hq), if_neg hlast] at h
    have ho_nil : o = [] := by
      by_contra hne
      have hle := lastIsOptional_append_opt m o hne ho
      rw [← hacc] at hle
      exact hlast hle
    subst ho_nil
    refine ih items ending (m ++ [⟨.Str, .Mandatory⟩]) [] h
      (by rw [hacc]; simp) ?_ (by simp)
    intro it hit
    rcases List.mem_append.mp hit with h2 | h2
    · exact hm it h2
    · simp only [List.mem_singleton] at h2
      rw [h2]
  | case8 rest acc hq hlast =>
    intro items ending m o h hacc hm ho
    rw [parseLoop_step_d rest acc (head_ne_q_of_no_q rest hq), if_pos hlast] at h
    exact absurd h (by simp)
  | case9 rest acc hq hlast ih =>
    intro items ending m o h hacc hm ho
    rw [parseLoop_step_d rest acc (head_ne_q_of_no_q rest hq), if_neg hlast] at h
    have ho_nil : o = [] := by
      by_contra hne
      have hle := lastIsOptional_append_opt m o hne ho
      rw [← hacc] at hle
      exact hlast hle
    subst ho_nil
    refine ih items ending (m ++ [⟨.Int, .Mandatory⟩]) [] h
      (by rw [hacc]; simp) ?_ (by simp)
    intro it hit
    rcases List.mem_append.mp hit with h2 | h2
    · exact hm it h2
    · simp only [List.mem_singleton] at h2
      rw [h2]
  | case10 t x h1 h2 h3 h4 h5 h6 =>
    intro items ending m o h hacc hm ho
    rw [show parseLoop t x = none from by
      rw [parseLoop.eq_def]
      split
      all_goals first
        | rfl
        | exact absurd rfl h1
        | exact absurd rfl h2
        | exact (h3 _ rfl).elim
        | exact (h4 _ rfl).elim
        | exact (h5 _ rfl).elim
        | exact (h6 _ rfl).elim] at h
    exact absurd h (by simp)

/-- Soundness of full descriptor compilation: a successful compile means the
descriptor is exactly the rendering of the schema, and the schema satisfies
the invariants. -/
theorem parse_format_string_ex_sound (fmt : Frag) (fs : FormatString)
    (h : parse_format_string_ex fmt = some fs) :
    fmt = renderDescriptor fs ∧ validSchema fs := by
  unfold parse_format_string_ex at h
  by_cases hfmt : fmt = []
  · rw [if_pos hfmt] at h
    exact absurd h (by simp)
  · rw [if_neg hfmt] at h
    cases hp : parseLoop fmt [] with
    | none =>
      rw [hp] at h
      exact absurd h (by simp)
    | some pr =>
      obtain ⟨items, ending⟩ := pr
      rw [hp] at h
      cases items with
      | nil => exact absurd h (by simp)
      | cons first rest =>
        replace h : (if first.opt = FormatItemOpt.Optional then none
            else some (FormatString.mk (first :: rest) ending)) = some fs := h
        by_cases hopt : first.opt = .Optional
        · rw [if_pos hopt] at h
          exact absurd h (by simp)
        · rw [if_neg hopt] at h
          simp only [Option.some_inj] at h
          subst h
          obtain ⟨nw, hnw, hfmt2, -⟩ := parseLoop_sound fmt [] (first :: rest) ending hp
          simp only [List.nil_append] at hnw
          subst hnw
          obtain ⟨m2, o2, hsplit, hm2, ho2⟩ :=
            parseLoop_suffix fmt [] (first :: rest) ending [] [] hp rfl (by simp) (by simp)
          have hfirst : first.opt = .Mandatory := by
            cases hcase : first.opt with
            | Mandatory => rfl
            | Optional => exact absurd hcase hopt
          exact ⟨by rw [hfmt2, renderDescriptor], ⟨first, rest, rfl, hfirst⟩,
            m2, o2, hsplit, hm2, ho2⟩


theorem mem_renderItem_char (it : FormatItem) (c : Char) (hc : c ∈ renderItem it) :
    c = '%' ∨ c = 's' ∨ c = 'd' ∨ c = '?' := by
  rcases it with ⟨ty, opt⟩
  cases ty <;> cases opt <;>
    (simp [renderItem, renderType] at hc; tauto)

theorem star_not_mem_renderItems (items : List FormatItem) : '*' ∉ renderItems items := by
  intro hc
  induction items with
  | nil => simp [renderItems] at hc
  | cons it l ih =>
    rw [renderItems_cons, List.mem_append] at hc
    rcases hc with hc | hc
    · rcases mem_renderItem_char it '*' hc with h | h | h | h <;> exact absurd h (by decide)
    · exact ih hc

/-- A compiled descriptor containing `*` has it exactly once, as its final
character, with the whole item rendering (non-empty) before it. -/
theorem wildcard_placement (fmt : Frag) (fs : FormatString)
    (h : parse_format_string_ex fmt = some fs) (hstar : '*' ∈ fmt) :
    fs.ending = .Open ∧ fmt = renderItems fs.items ++ ['*'] ∧
      '*' ∉ renderItems fs.items := by
  obtain ⟨hfmt, -⟩ := parse_format_string_ex_sound fmt fs h
  cases hend : fs.ending with
  | Closed =>
    rw [hfmt, renderDescriptor, hend] at hstar
    simp only [endFrag, List.append_nil] at hstar
    exact absurd hstar (star_not_mem_renderItems fs.items)
  | Open =>
    rw [renderDescriptor, hend] at hfmt
    exact ⟨rfl, hfmt, star_not_mem_renderItems fs.items⟩

/-! ## Descriptor parser: completeness -/

theorem parseLoop_complete_opt : ∀ (o : List FormatItem) (acc : List FormatItem)
    (ending : FormatEnding), (∀ it ∈ o, it.opt = .Optional) →
    (ending = .Open → acc ++ o ≠ []) →
    parseLoop (renderItems o ++ endFrag ending) acc = some (acc ++ o, ending)
  | [], acc, ending, ho, hne => by
    cases ending with
    | Closed => simp [renderItems, endFrag, parseLoop]
    | Open =>
      have hacc : ¬(acc = []) := by simpa using hne rfl
      simp [renderItems, endFrag, parseLoop, hacc]
  | it :: o2, acc, ending, ho, hne => by
    rcases it with ⟨ty, opt⟩
    have hopt : opt = .Optional := ho _ (List.mem_cons_self _ _)
    subst hopt
    have ho2 : ∀ x ∈ o2, x.opt = .Optional := fun x hx => ho x (List.mem_cons_of_mem _ hx)
    have hne2 : ending = .Open → (acc ++ [⟨ty, .Optional⟩]) ++ o2 ≠ [] := by
      intro _
      simp
    have ih := parseLoop_complete_opt o2 (acc ++ [⟨ty, .Optional⟩]) ending ho2 hne2
    cases ty with
    | Str =>
      show parseLoop ('%' :: 's' :: '?' :: (renderItems o2 ++ endFrag ending)) acc =
        some (acc ++ ⟨FormatItemType.Str, FormatItemOpt.Optional⟩ :: o2, ending)
      rw [show parseLoop ('%' :: 's' :: '?' :: (renderItems o2 ++ endFrag ending)) acc =
        parseLoop (renderItems o2 ++ endFrag ending) (acc ++ [⟨.Str, .Optional⟩]) from by
          simp [parseLoop]]
      rw [ih]
      simp
    | Int =>
      show parseLoop ('%' :: 'd' :: '?' :: (renderItems o2 ++ endFrag ending)) acc =
        some (acc ++ ⟨FormatItemType.Int, FormatItemOpt.Optional⟩ :: o2, ending)
      rw [show parseLoop ('%' :: 'd' :: '?' :: (renderItems o2 ++ endFrag ending)) acc =
        parseLoop (renderItems o2 ++ endFrag ending) (acc ++ [⟨.Int, .Optional⟩]) from by
          simp [parseLoop]]
      rw [ih]
      simp

theorem parseLoop_complete_mand : ∀ (m o acc : List FormatItem) (ending : FormatEnding),
    (∀ it ∈ m, it.opt = .Mandatory) → (∀ it ∈ o, it.opt = .Optional) →
    lastIsOptional acc = false → (ending = .Open → acc ++ (m ++ o) ≠ []) →
    parseLoop (renderItems (m ++ o) ++ endFrag ending) acc = some (acc ++ (m ++ o), ending)
  | [], o, acc, ending, _, ho, hlast, hne => by
    simpa using parseLoop_complete_opt o acc ending ho (by simpa using hne)
  | it :: m2, o, acc, ending, hm, ho, hlast, hne => by
    rcases it with ⟨ty, opt⟩
    have hopt : opt = .Mandatory := hm _ (List.mem_cons_self _ _)
    subst hopt
    have hm2 : ∀ x ∈ m2, x.opt = .Mandatory := fun x hx => hm x (List.mem_cons_of_mem _ hx)
    have hne2 : ending = .Open → (acc ++ [⟨ty, .Mandatory⟩]) ++ (m2 ++ o) ≠ [] := by
      intro _
      simp
    have ih := parseLoop_complete_mand m2 o (acc ++ [⟨ty, .Mandatory⟩]) ending hm2 ho
      (lastIsOptional_append_mandatory acc ty) hne2
    cases ty with
    | Str =>
      show parseLoop ('%' :: 's' :: (renderItems (m2 ++ o) ++ endFrag ending)) acc =
        some (acc ++ (⟨FormatItemType.Str, FormatItemOpt.Mandatory⟩ :: (m2 ++ o)), ending)
      rw [parseLoop_step_s _ _ (renderItems_head_ne_q (m2 ++ o) ending)]
      rw [if_neg (by simp [hlast])]
      rw [ih]
      simp
    | Int =>
      show parseLoop ('%' :: 'd' :: (renderItems (m2 ++ o) ++ endFrag ending)) acc =
        some (acc ++ (⟨FormatItemType.Int, FormatItemOpt.Mandatory⟩ :: (m2 ++ o)), ending)
      rw [parseLoop_step_d _ _ (renderItems_head_ne_q (m2 ++ o) ending)]
      rw [if_neg (by simp [hlast])]
      rw [ih]
      simp

theorem renderItem_ne_nil (it : FormatItem) : renderItem it ≠ [] := by
  rcases it with ⟨ty, opt⟩
  cases ty <;> cases opt <;> simp [renderItem, renderType]

theorem renderDescriptor_ne_nil (fs : FormatString) (first : FormatItem)
    (rest : List FormatItem) (hitems : fs.items = first :: rest) :
    renderDescriptor fs ≠ [] := by
  rw [renderDescriptor, hitems, renderItems_cons]
  intro hc
  rcases List.append_eq_nil.mp hc with ⟨hc1, -⟩
  rcases List.append_eq_nil.mp hc1 with ⟨hc2, -⟩
  exact renderItem_ne_nil first hc2

/-- Completeness of descriptor compilation: every schema satisfying the
invariants is produced by compiling its canonical descriptor. -/
theorem parse_format_string_ex_complete (fs : FormatString) (h : validSchema fs) :
    parse_format_string_ex (renderDescriptor fs) = some fs := by
  obtain ⟨⟨first, rest, hitems, hfirst⟩, ⟨m, o, hsplit, hm, ho⟩⟩ := h
  have hloop := parseLoop_complete_mand m o [] fs.ending hm ho (by simp [lastIsOptional])
    (by intro _; rw [← hsplit, hitems]; simp)
  unfold parse_format_string_ex
  rw [if_neg (renderDescriptor_ne_nil fs first rest hitems)]
  rw [renderDescriptor, hsplit, hloop]
  simp only [List.nil_append, ← hsplit, hitems]
  rw [if_neg (by rw [hfirst]; simp)]
  rw [← hitems]

/-! ## Equivalence of the two format-string parsers -/

theorem parseLoop_none_catchall (t : Frag) (x : List FormatItem)
    (h1 : t = [] → False) (h2 : t = ['*'] → False)
    (h3 : ∀ rest, t = '%' :: 's' :: '?' :: rest → False)
    (h4 : ∀ rest, t = '%' :: 'd' :: '?' :: rest → False)
    (h5 : ∀ rest, t = '%' :: 's' :: rest → False)
    (h6 : ∀ rest, t = '%' :: 'd' :: rest → False) :
    parseLoop t x = none := by
  rw [parseLoop.eq_def]
  split
  all_goals first
    | rfl
    | exact absurd rfl h1
    | exact absurd rfl h2
    | exact (h3 _ rfl).elim
    | exact (h4 _ rfl).elim
    | exact (h5 _ rfl).elim
    | exact (h6 _ rfl).elim

theorem no_opt_of_has_optional_false (acc : List FormatItem)
    (h : has_optional_items acc = false) : ∀ it ∈ acc, it.opt ≠ .Optional := by
  intro it hit
  simp only [has_optional_items, List.any_eq_false, decide_eq_true_eq] at h
  exact h it hit

theorem lastIsOptional_false_of_no_opt (acc : List FormatItem)
    (h : has_optional_items acc = false) : lastIsOptional acc = false := by
  unfold lastIsOptional
  cases hl : acc.getLast? with
  | none => rfl
  | some it =>
    have hmem : it ∈ acc := by
      obtain ⟨hne, heq⟩ := List.mem_getLast?_eq_getLast (x := it) (l := acc) hl
      exact heq ▸ List.getLast_mem hne
    simp [no_opt_of_has_optional_false acc h it hmem]

theorem has_optional_append (a b : List FormatItem) :
    has_optional_items (a ++ b) = (has_optional_items a || has_optional_items b) := by
  simp [has_optional_items, List.any_append]

theorem parseLoop_toClosed_opt (fmt : Frag) (acc : List FormatItem) :
    has_optional_items acc = true → toClosedMandatory (parseLoop fmt acc) = none := by
  induction fmt, acc using parseLoop.induct with
  | case1 acc =>
    intro h
    simp [parseLoop, toClosedMandatory, h]
  | case2 =>
    intro h
    simp [parseLoop, toClosedMandatory]
  | case3 acc hne =>
    intro h
    simp [parseLoop, hne, toClosedMandatory]
  | case4 rest acc ih =>
    intro h
    rw [show parseLoop ('%' :: 's' :: '?' :: rest) acc =
      parseLoop rest (acc ++ [⟨.Str, .Optional⟩]) from by simp [parseLoop]]
    exact ih (by simp [has_optional_items])
  | case5 rest acc ih =>
    intro h
    rw [show parseLoop ('%' :: 'd' :: '?' :: rest) acc =
      parseLoop rest (acc ++ [⟨.Int, .Optional⟩]) from by simp [parseLoop]]
    exact ih (by simp [has_optional_items])
  | case6 rest acc hq hlast =>
    intro h
    rw [parseLoop_step_s rest acc (head_ne_q_of_no_q rest hq), if_pos hlast]
    simp [toClosedMandatory]
  | case7 rest acc hq hlast ih =>
    intro h
    rw [parseLoop_step_s rest acc (head_ne_q_of_no_q rest hq), if_neg hlast]
    exact ih (by rw [has_optional_append, h]; simp)
  | case8 rest acc hq hlast =>
    intro h
    rw [parseLoop_step_d rest acc (head_ne_q_of_no_q rest hq), if_pos hlast]
    simp [toClosedMandatory]
  | case9 rest acc hq hlast ih =>
    intro h
    rw [parseLoop_step_d rest acc (head_ne_q_of_no_q rest hq), if_neg hlast]
    exact ih (by rw [has_optional_append, h]; simp)
  | case10 t x h1 h2 h3 h4 h5 h6 =>
    intro h
    rw [parseLoop_none_catchall t x h1 h2 h3 h4 h5 h6]
    simp [toClosedMandatory]

theorem parseLoop_toClosed_mand (fmt : Frag) (acc : List FormatItem) :
    has_optional_items acc = false →
    toClosedMandatory (parseLoop fmt acc) =
      (FmtProc.parsePairs fmt).map (fun tys => acc.map (fun it => it.ty) ++ tys) := by
  induction fmt, acc using parseLoop.induct with
  | case1 acc =>
    intro h
    simp [parseLoop, toClosedMandatory, h, FmtProc.parsePairs]
  | case2 =>
    intro h
    simp [parseLoop, toClosedMandatory, FmtProc.parsePairs]
  | case3 acc hne =>
    intro h
    simp [parseLoop, hne, toClosedMandatory, FmtProc.parsePairs]
  | case4 rest acc ih =>
    intro h
    rw [show parseLoop ('%' :: 's' :: '?' :: rest) acc =
      parseLoop rest (acc ++ [⟨.Str, .Optional⟩]) from by simp [parseLoop]]
    rw [parseLoop_toClosed_opt rest _ (by simp [has_optional_items])]
    cases rest <;> simp [FmtProc.parsePairs, itemTypeOfChar]
  | case5 rest acc ih =>
    intro h
    rw [show parseLoop ('%' :: 'd' :: '?' :: rest) acc =
      parseLoop rest (acc ++ [⟨.Int, .Optional⟩]) from by simp [parseLoop]]
    rw [parseLoop_toClosed_opt rest _ (by simp [has_optional_items])]
    cases rest <;> simp [FmtProc.parsePairs, itemTypeOfChar]
  | case6 rest acc hq hlast =>
    intro h
    exact absurd hlast (by simp [lastIsOptional_false_of_no_opt acc h])
  | case7 rest acc hq hlast ih =>
    intro h
    rw [parseLoop_step_s rest acc (head_ne_q_of_no_q rest hq), if_neg hlast]
    rw [ih (by rw [has_optional_append, h]; simp [has_optional_items])]
    cases hp : FmtProc.parsePairs rest <;>
      simp [hp, FmtProc.parsePairs, itemTypeOfChar]
  | case8 rest acc hq hlast =>
    intro h
    exact absurd hlast (by simp [lastIsOptional_false_of_no_opt acc h])
  | case9 rest acc hq hlast ih =>
    intro h
    rw [parseLoop_step_d rest acc (head_ne_q_of_no_q rest hq), if_neg hlast]
    rw [ih (by rw [has_optional_append, h]; simp [has_optional_items])]
    cases hp : FmtProc.parsePairs rest <;>
      simp [hp, FmtProc.parsePairs, itemTypeOfChar]
  | case10 t x h1 h2 h3 h4 h5 h6 =>
    intro h
    rw [parseLoop_none_catchall t x h1 h2 h3 h4 h5 h6]
    have hpp : FmtProc.parsePairs t = none := by
      cases t with
      | nil => exact absurd rfl h1
      | cons c1 r =>
        cases r with
        | nil => simp [FmtProc.parsePairs]
        | cons c2 r2 =>
          by_cases hc1 : c1 = '%'
          · subst hc1
            by_cases hc2s : c2 = 's'
            · subst hc2s
              exact (h5 r2 rfl).elim
            · by_cases hc2d : c2 = 'd'
              · subst hc2d
                exact (h6 r2 rfl).elim
              · simp [FmtProc.parsePairs, itemTypeOfChar, hc2s, hc2d]
          · simp [FmtProc.parsePairs, hc1]
    simp [hpp, toClosedMandatory]

theorem parse_format_string_eq_toClosed (fmt : Frag) (hfmt : fmt ≠ []) :
    parse_format_string fmt = toClosedMandatory (parseLoop fmt []) := by
  unfold parse_format_string parse_format_string_ex
  rw [if_neg hfmt]
  cases hp : parseLoop fmt [] with
  | none => simp [toClosedMandatory]
  | some pr =>
    obtain ⟨items, ending⟩ := pr
    cases items with
    | nil =>
      obtain ⟨nw, hnw, hfmt2, hopen⟩ := parseLoop_sound fmt [] [] ending hp
      have hnwnil : nw = [] := by simpa using hnw.symm
      subst hnwnil
      cases ending with
      | Closed =>
        simp only [renderItems, endFrag, List.map_nil, List.flatten_nil,
          List.append_nil] at hfmt2
        exact absurd hfmt2 hfmt
      | Open => exact absurd rfl (hopen rfl)
    | cons first rest =>
      by_cases hopt : first.opt = .Optional
      · have hlhs : (match (if first.opt = FormatItemOpt.Optional then none
            else some (FormatString.mk (first :: rest) ending)) with
            | none => none
            | some fs => if fs.ending ≠ FormatEnding.Closed then none
              else if has_optional_items fs.items then none
              else some (fs.items.map (fun it => it.ty))) =
            (none : Option (List FormatItemType)) := by
          rw [if_pos hopt]
        rw [hlhs]
        cases ending <;>
          simp [toClosedMandatory, has_optional_items, hopt]
      · have hlhs : (match (if first.opt = FormatItemOpt.Optional then none
            else some (FormatString.mk (first :: rest) ending)) with
            | none => none
            | some fs => if fs.ending ≠ FormatEnding.Closed then none
              else if has_optional_items fs.items then none
              else some (fs.items.map (fun it => it.ty))) =
            (if ending ≠ FormatEnding.Closed then none
              else if has_optional_items (first :: rest) then none
              else some ((first :: rest).map (fun it => it.ty))) := by
          rw [if_neg hopt]
        rw [hlhs]
        cases ending with
        | Open => simp [toClosedMandatory]
        | Closed =>
          simp only [ne_eq, not_true_eq_false, if_false, reduceIte]
          by_cases hho : has_optional_items (first :: rest) = true <;>
            simp [toClosedMandatory, hho]

theorem parsePairs_odd : ∀ (fmt : Frag), fmt.length % 2 = 1 → FmtProc.parsePairs fmt = none
  | [], h => by simp at h
  | [c], _ => by simp [FmtProc.parsePairs]
  | c1 :: c2 :: rest, h => by
    have h2 : rest.length % 2 = 1 := by
      simp only [List.length_cons] at h
      omega
    have ih := parsePairs_odd rest h2
    by_cases hc1 : c1 = '%'
    · subst hc1
      cases hty : itemTypeOfChar c2 <;> simp [FmtProc.parsePairs, hty, ih]
    · simp [FmtProc.parsePairs, hc1]

theorem fmtproc_eq_parsePairs (fmt : Frag) (hfmt : fmt ≠ []) :
    FmtProc.parse_format_string fmt = FmtProc.parsePairs fmt := by
  unfold FmtProc.parse_format_string
  by_cases hpar : fmt.length % 2 = 0
  · rw [if_neg]
    push_neg
    constructor
    · simpa using hfmt
    · exact hpar
  · have hodd : fmt.length % 2 = 1 := by omega
    rw [if_pos (Or.inr (by omega)), parsePairs_odd fmt hodd]

/-! ## The all-mandatory rendering and the format-side parser -/

theorem renderTys_cons (t : FormatItemType) (tys : List FormatItemType) :
    renderTys (t :: tys) = renderType t ++ renderTys tys := by
  simp [renderTys]

theorem parsePairs_renderTys : ∀ (tys : List FormatItemType),
    FmtProc.parsePairs (renderTys tys) = some tys
  | [] => rfl
  | t :: tys => by
    have ih := parsePairs_renderTys tys
    simp only [renderTys] at ih ⊢
    cases t <;> simp [renderType, FmtProc.parsePairs, itemTypeOfChar, ih]

theorem renderTys_length (tys : List FormatItemType) :
    (renderTys tys).length = 2 * tys.length := by
  induction tys with
  | nil => rfl
  | cons t tys ih =>
    cases t <;> simp [renderTys_cons, renderType, ih] <;> omega

theorem fmtproc_parse_renderTys (tys : List FormatItemType) (hne : tys ≠ []) :
    FmtProc.parse_format_string (renderTys tys) = some tys := by
  have hlen : (renderTys tys).length = 2 * tys.length := renderTys_length tys
  have hne2 : renderTys tys ≠ [] := by
    intro hc
    rw [hc] at hlen
    simp only [List.length_nil] at hlen
    cases tys with
    | nil => exact hne rfl
    | cons t l => simp at hlen
  rw [fmtproc_eq_parsePairs _ hne2, parsePairs_renderTys]

/-! ## Round trip assembly -/

theorem renderItems_map_asMandatory (tys : List FormatItemType) :
    renderItems (tys.map asMandatory) = renderTys tys := by
  induction tys with
  | nil => rfl
  | cons t tys ih =>
    rw [List.map_cons, renderItems_cons, ih, renderTys_cons]
    rcases t <;> simp [renderItem, renderType, asMandatory]

theorem renderDescriptor_allMandatory (tys : List FormatItemType) :
    renderDescriptor (allMandatorySchema tys) = renderTys tys := by
  rw [renderDescriptor, allMandatorySchema]
  simp [renderItems_map_asMandatory, endFrag]

theorem validSchema_allMandatory (tys : List FormatItemType) (hne : tys ≠ []) :
    validSchema (allMandatorySchema tys) := by
  constructor
  · cases tys with
    | nil => exact absurd rfl hne
    | cons t l =>
      exact ⟨asMandatory t, l.map asMandatory, rfl, rfl⟩
  · refine ⟨tys.map asMandatory, [], by simp [allMandatorySchema], ?_, by simp⟩
    intro it hit
    obtain ⟨t, -, rfl⟩ := List.mem_map.mp hit
    rfl

theorem splitUU_encodedOf (tys : List FormatItemType) (vals : List Value)
    (h : strSafe vals = true) :
    splitUU (encodedOf tys vals) = renderTys tys :: vals.map renderValue := by
  unfold encodedOf fieldsOf
  rw [show (vals.map (fun v => delim ++ renderValue v)) =
      ((vals.map renderValue).map (fun f => delim ++ f)) from by
    simp [List.map_map, Function.comp]]
  apply splitUU_head_fields
  · exact hasUU_of_not_mem _ (not_mem_renderTys_underscore tys)
  · exact getLast?_ne_underscore_of_not_mem _ (not_mem_renderTys_underscore tys)
  · intro f hf
    obtain ⟨v, hv, rfl⟩ := List.mem_map.mp hf
    exact renderValue_clean v (by
      simp only [strSafe, List.all_eq_true] at h
      exact h v hv)

/-! ## The claims -/

/-- C1 (counterexample): the round trip fails as literally stated.  The tuple
`("a__b",)` matches the declared type of the schema for `"%s"` (it is text),
yet encoding it and decoding the result against the same schema yields `None`
rather than `Some (("a__b",))`, because the unescaped value injects the
delimiter. -/
theorem c1_counterexample :
    frag_format ("%s".toList) [Value.str ("a__b".toList)] =
      FmtResult.ok ("%s__a__b".toList) ∧
    typesMatch [FormatItemType.Str] [Value.str ("a__b".toList)] = true ∧
    frag_parse ⟨[⟨.Str, .Mandatory⟩], .Closed⟩ ("%s__a__b".toList) = none := by
  refine ⟨by decide, by decide, by decide⟩

/-- C1 (amended): for every descriptor whose schema has only Mandatory items
and Closed ending, and every tuple of values matching the declared slot types
(text for Str slots, signed 64-bit integers for Int slots) *whose Str values
neither contain the delimiter `__` nor end with `_`*, encoding succeeds and
decoding the encoded string against the same schema returns the original
tuple. -/
theorem c1_round_trip (tys : List FormatItemType) (vals : List Value)
    (h1 : tys ≠ []) (h2 : typesMatch tys vals = true) (h3 : strSafe vals = true) :
    frag_format (renderTys tys) vals = FmtResult.ok (encodedOf tys vals) ∧
    parse_format_string_ex (renderTys tys) = some (allMandatorySchema tys) ∧
    frag_parse (allMandatorySchema tys) (encodedOf tys vals) =
      some (vals.map embedValue) := by
  refine ⟨?_, ?_, ?_⟩
  · unfold frag_format
    rw [fmtproc_parse_renderTys tys h1]
    show (if tys.length ≠ vals.length then FmtResult.err FormatCompileError.ArgCountMismatch
      else FmtResult.ok (renderTys tys ++
        (vals.map (fun v => delim ++ renderValue v)).flatten)) =
      FmtResult.ok (encodedOf tys vals)
    rw [if_neg (by simp [typesMatch_length tys vals h2])]
    rfl
  · have hvalid := validSchema_allMandatory tys h1
    have hc := parse_format_string_ex_complete _ hvalid
    rwa [renderDescriptor_allMandatory] at hc
  · unfold frag_parse
    rw [splitUU_encodedOf tys vals h3]
    show decodeFrags (allMandatorySchema tys) (renderTys tys :: vals.map renderValue) =
      some (vals.map embedValue)
    have hpat : patternCheck (allMandatorySchema tys) (renderTys tys) = true := by
      unfold patternCheck
      rw [if_neg (by
        simp only [allMandatorySchema, has_optional_map_asMandatory]
        simp)]
      simp [allMandatorySchema, rebuild_allMandatory]
    simp only [decodeFrags, hpat, if_true]
    rw [show (allMandatorySchema tys).items = tys.map asMandatory from rfl]
    rw [consumeSlots_exact tys vals h2]
    simp [allMandatorySchema]

/-- C1 (witness): the amended round trip at the concrete schema `"%s%d"` and
tuple `("a", 42)`. -/
theorem c1_witness :
    frag_format (renderTys [FormatItemType.Str, FormatItemType.Int])
        [Value.str ("a".toList), Value.int 42] =
      FmtResult.ok (encodedOf [FormatItemType.Str, FormatItemType.Int]
        [Value.str ("a".toList), Value.int 42]) ∧
    parse_format_string_ex (renderTys [FormatItemType.Str, FormatItemType.Int]) =
      some (allMandatorySchema [FormatItemType.Str, FormatItemType.Int]) ∧
    frag_parse (allMandatorySchema [FormatItemType.Str, FormatItemType.Int])
        (encodedOf [FormatItemType.Str, FormatItemType.Int]
          [Value.str ("a".toList), Value.int 42]) =
      some ([Value.str ("a".toList), Value.int 42].map embedValue) :=
  c1_round_trip [FormatItemType.Str, FormatItemType.Int]
    [Value.str ("a".toList), Value.int 42]
    (by decide) (by decide) (by decide)

/-- C2: for every schema and input, decode succeeds iff the pattern-fragment
check passes, every Mandatory slot receives a data fragment, every Int slot
that receives a fragment parses as a base-10 signed 64-bit integer, and the
tail check passes; in particular `decode(schema_for "%d", "%d__42") = Some 42`,
`"%d__"` and `"%d__foo"` decode to `None`, and
`decode(schema_for "%d%s", "%d%s__42") = None` (missing mandatory field). -/
theorem c2_decode_characterization :
    (∀ (fs : FormatString) (input : Frag),
      (frag_parse fs input).isSome = true ↔
        (patternOk fs ((splitUU input).headI) ∧
         mandatoryCovered fs.items ((splitUU input).tail) ∧
         intSlotsParse fs.items ((splitUU input).tail) ∧
         tailOk fs ((splitUU input).tail))) ∧
    parse_format_string_ex ("%d".toList) =
      some ⟨[⟨.Int, .Mandatory⟩], .Closed⟩ ∧
    frag_parse ⟨[⟨.Int, .Mandatory⟩], .Closed⟩ ("%d__42".toList) =
      some [.int 42] ∧
    frag_parse ⟨[⟨.Int, .Mandatory⟩], .Closed⟩ ("%d__".toList) = none ∧
    frag_parse ⟨[⟨.Int, .Mandatory⟩], .Closed⟩ ("%d__foo".toList) = none ∧
    parse_format_string_ex ("%d%s".toList) =
      some ⟨[⟨.Int, .Mandatory⟩, ⟨.Str, .Mandatory⟩], .Closed⟩ ∧
    frag_parse ⟨[⟨.Int, .Mandatory⟩, ⟨.Str, .Mandatory⟩], .Closed⟩
      ("%d%s__42".toList) = none := by
  refine ⟨?_, by decide, by decide, by decide, by decide, by decide, by decide⟩
  intro fs input
  cases hs : splitUU input with
  | nil => exact absurd hs (splitUU_ne_nil input)
  | cons pat ds =>
    unfold frag_parse
    rw [hs]
    simpa using decodeFrags_isSome_iff fs pat ds

/-- C3: every successfully compiled descriptor yields a schema with at least
one item, a Mandatory first item, optionals forming a contiguous suffix, and
the wildcard (when present in the descriptor) as final character preceded by
the items; and compilation fails on every descriptor that is not the rendering
of a schema satisfying the invariants. -/
theorem c3_schema_invariants :
    (∀ (fmt : Frag) (fs : FormatString), parse_format_string_ex fmt = some fs →
      fs.items ≠ [] ∧
      (∃ first rest, fs.items = first :: rest ∧ first.opt = .Mandatory) ∧
      (∃ m o, fs.items = m ++ o ∧ (∀ it ∈ m, it.opt = .Mandatory) ∧
        ∀ it ∈ o, it.opt = .Optional) ∧
      ('*' ∈ fmt → fs.ending = .Open ∧ fmt = renderItems fs.items ++ ['*'] ∧
        '*' ∉ renderItems fs.items)) ∧
    (∀ (fmt : Frag), parse_format_string_ex fmt = none →
      ∀ fs, validSchema fs → fmt ≠ renderDescriptor fs) := by
  constructor
  · intro fmt fs h
    obtain ⟨hfmt, hvalid⟩ := parse_format_string_ex_sound fmt fs h
    obtain ⟨⟨first, rest, hitems, hfirst⟩, hdecomp⟩ := hvalid
    refine ⟨by rw [hitems]; simp, ⟨first, rest, hitems, hfirst⟩, hdecomp, ?_⟩
    intro hstar
    exact wildcard_placement fmt fs h hstar
  · intro fmt h fs hvalid hc
    rw [hc, parse_format_string_ex_complete fs hvalid] at h
    exact absurd h (by simp)

/-- C3 (witness): the invariants instantiated at the compiled descriptor
`"%s%d?*"`, and the failure direction at the invalid descriptor `"%x"`. -/
theorem c3_witness :
    ((FormatString.mk [⟨.Str, .Mandatory⟩, ⟨.Int, .Optional⟩] .Open).items ≠ [] ∧
      (∃ first rest,
        (FormatString.mk [⟨.Str, .Mandatory⟩, ⟨.Int, .Optional⟩] .Open).items =
          first :: rest ∧ first.opt = .Mandatory) ∧
      (∃ m o, (FormatString.mk [⟨.Str, .Mandatory⟩, ⟨.Int, .Optional⟩] .Open).items =
          m ++ o ∧ (∀ it ∈ m, it.opt = .Mandatory) ∧ ∀ it ∈ o, it.opt = .Optional) ∧
      ('*' ∈ ("%s%d?*".toList : Frag) →
        (FormatString.mk [⟨.Str, .Mandatory⟩, ⟨.Int, .Optional⟩] .Open).ending = .Open ∧
        ("%s%d?*".toList : Frag) =
          renderItems (FormatString.mk [⟨.Str, .Mandatory⟩, ⟨.Int, .Optional⟩] .Open).items
            ++ ['*'] ∧
        '*' ∉ renderItems
          (FormatString.mk [⟨.Str, .Mandatory⟩, ⟨.Int, .Optional⟩] .Open).items)) ∧
    ("%x".toList : Frag) ≠ renderDescriptor ⟨[⟨.Str, .Mandatory⟩], .Closed⟩ :=
  ⟨c3_schema_invariants.1 ("%s%d?*".toList)
      ⟨[⟨.Str, .Mandatory⟩, ⟨.Int, .Optional⟩], .Open⟩ (by decide),
   c3_schema_invariants.2 ("%x".toList) (by decide)
      ⟨[⟨.Str, .Mandatory⟩], .Closed⟩
      ⟨⟨⟨.Str, .Mandatory⟩, [], rfl, rfl⟩,
       ⟨[⟨.Str, .Mandatory⟩], [], by simp, by simp, by simp⟩⟩⟩

/-- C4: the decode pattern-fragment check is exact string equality for a
`Closed` schema with no Optional items and a starts-with test otherwise; and
for the schema of `"%s%d?"` (which has an Optional item) the pattern fragment
`"%s"` — a strict textual prefix of the declared descriptor `"%s%d?"` — is
accepted by this check. -/
theorem c4_pattern_check :
    (∀ (fs : FormatString) (p : Frag),
      patternCheck fs p = true ↔
        (if fs.ending = .Open ∨ has_optional_items fs.items = true
         then rebuild_format_string fs.items <+: p
         else p = rebuild_format_string fs.items)) ∧
    (parse_format_string_ex ("%s%d?".toList) =
      some ⟨[⟨.Str, .Mandatory⟩, ⟨.Int, .Optional⟩], .Closed⟩ ∧
     patternCheck ⟨[⟨.Str, .Mandatory⟩, ⟨.Int, .Optional⟩], .Closed⟩
       ("%s".toList) = true ∧
     ("%s".toList : Frag) <+: "%s%d?".toList ∧
     ("%s".toList : Frag) ≠ "%s%d?".toList) := by
  refine ⟨?_, by decide, by decide, ⟨"%d?".toList, rfl⟩, by decide⟩
  intro fs p
  simpa [patternOk] using patternCheck_iff fs p

/-- C5 (counterexample): the claim fails as stated — the encoder rejects the
descriptor `"%s%d?"` (its format-side parser accepts only `%s`/`%d` pairs), so
`encode(schema_for "%s%d?", ("a", 5))` is a `BadFormatString` compile error
rather than the string `"%s__a__5"`. -/
theorem c5_counterexample :
    frag_format ("%s%d?".toList) [Value.str ("a".toList), Value.int 5] =
      FmtResult.err FormatCompileError.BadFormatString := by
  decide

/-- C5 (amended): for every *all-mandatory Closed* schema and every value
tuple with exactly one value per slot, encode succeeds and returns the
descriptor (which for an all-mandatory schema equals the mandatory-items-only
rendering) followed by one `__`-delimited field per slot in order — e.g.
`encode(schema_for "%s%d", ("a", 5)) = "%s%d__a__5"`; a descriptor with an
Optional item such as `"%s%d?"` is rejected by the encoder. -/
theorem c5_encode (tys : List FormatItemType) (vals : List Value)
    (h1 : tys ≠ []) (h2 : tys.length = vals.length) :
    frag_format (renderTys tys) vals = FmtResult.ok (renderTys tys ++ fieldsOf vals) ∧
    frag_format ("%s%d".toList) [Value.str ("a".toList), Value.int 5] =
      FmtResult.ok ("%s%d__a__5".toList) ∧
    frag_format ("%s%d?".toList) [Value.str ("a".toList), Value.int 5] =
      FmtResult.err FormatCompileError.BadFormatString := by
  refine ⟨?_, by decide, by decide⟩
  unfold frag_format
  rw [fmtproc_parse_renderTys tys h1]
  show (if tys.length ≠ vals.length then FmtResult.err FormatCompileError.ArgCountMismatch
    else FmtResult.ok (renderTys tys ++
      (vals.map (fun v => delim ++ renderValue v)).flatten)) =
    FmtResult.ok (renderTys tys ++ fieldsOf vals)
  rw [if_neg (by omega)]
  rfl

/-- C5 (witness): the amended encoder equation at the schema `"%s"` and the
one-value tuple `("x",)`. -/
theorem c5_witness :
    frag_format (renderTys [FormatItemType.Str]) [Value.str ("x".toList)] =
      FmtResult.ok (renderTys [FormatItemType.Str] ++ fieldsOf [Value.str ("x".toList)]) :=
  (c5_encode [FormatItemType.Str] [Value.str ("x".toList)] (by decide) (by decide)).1

/-- C6: after all declared slots have consumed their fragments, a `Closed`
ending rejects any leftover data fragment while an `Open` ending permits and
ignores leftovers — e.g. `decode(schema_for "%s%d*", "%s%d%s%s__a__1__b__c") =
Some ("a", 1)` while `decode(schema_for "%d%s", "%d%s__42__foo__bar") = None`. -/
theorem c6_tail_check :
    (∀ (fs : FormatString) (pat : Frag) (ds : List Frag),
      fs.ending = .Closed → fs.items.length < ds.length →
      decodeFrags fs (pat :: ds) = none) ∧
    (∀ (fs : FormatString) (pat : Frag) (ds extra : List Frag),
      fs.ending = .Open → fs.items.length ≤ ds.length →
      decodeFrags fs (pat :: (ds ++ extra)) = decodeFrags fs (pat :: ds)) ∧
    parse_format_string_ex ("%s%d*".toList) =
      some ⟨[⟨.Str, .Mandatory⟩, ⟨.Int, .Mandatory⟩], .Open⟩ ∧
    frag_parse ⟨[⟨.Str, .Mandatory⟩, ⟨.Int, .Mandatory⟩], .Open⟩
      ("%s%d%s%s__a__1__b__c".toList) = some [.str ("a".toList), .int 1] ∧
    parse_format_string_ex ("%d%s".toList) =
      some ⟨[⟨.Int, .Mandatory⟩, ⟨.Str, .Mandatory⟩], .Closed⟩ ∧
    frag_parse ⟨[⟨.Int, .Mandatory⟩, ⟨.Str, .Mandatory⟩], .Closed⟩
      ("%d%s__42__foo__bar".toList) = none :=
  ⟨decodeFrags_closed_extra, decodeFrags_open_extra,
   by decide, by decide, by decide, by decide⟩

/-- C6 (witness): the closed-ending rejection at a concrete schema and
fragment list, and the open-ending indifference at a concrete input. -/
theorem c6_witness :
    decodeFrags ⟨[⟨.Str, .Mandatory⟩], .Closed⟩
      ("%s".toList :: ["a".toList, "b".toList]) = none ∧
    decodeFrags ⟨[⟨.Str, .Mandatory⟩], .Open⟩
      ("%s".toList :: (["a".toList] ++ ["b".toList])) =
      decodeFrags ⟨[⟨.Str, .Mandatory⟩], .Open⟩ ("%s".toList :: ["a".toList]) :=
  ⟨c6_tail_check.1 ⟨[⟨.Str, .Mandatory⟩], .Closed⟩ ("%s".toList)
      ["a".toList, "b".toList] rfl (by decide),
   c6_tail_check.2.1 ⟨[⟨.Str, .Mandatory⟩], .Open⟩ ("%s".toList)
      ["a".toList] ["b".toList] rfl (by decide)⟩

/-- C7: an Optional slot with no remaining data fragment decodes to Absent and
cannot cause decode failure; an Optional slot with a fragment decodes to
Present of that value (the fragment itself for Str, its parsed value for
Int) — `decode(schema_for "%s%d?", "%s__a") = Some ("a", Absent)` and
`decode(schema_for "%s%d?", "%s%d__a__5") = Some ("a", Present 5)`. -/
theorem c7_optional_slots :
    (∀ ty : FormatItemType, consumeSlot ⟨ty, .Optional⟩ [] = (absentValue ty, true, [])) ∧
    (∀ (v : Frag) (rest : List Frag),
      consumeSlot ⟨.Str, .Optional⟩ (v :: rest) = (.optStr (some v), true, rest)) ∧
    (∀ (v : Frag) (rest : List Frag) (n : Int), parseI64 v = some n →
      consumeSlot ⟨.Int, .Optional⟩ (v :: rest) = (.optInt (some n), true, rest)) ∧
    parse_format_string_ex ("%s%d?".toList) =
      some ⟨[⟨.Str, .Mandatory⟩, ⟨.Int, .Optional⟩], .Closed⟩ ∧
    frag_parse ⟨[⟨.Str, .Mandatory⟩, ⟨.Int, .Optional⟩], .Closed⟩
      ("%s__a".toList) = some [.str ("a".toList), .optInt none] ∧
    frag_parse ⟨[⟨.Str, .Mandatory⟩, ⟨.Int, .Optional⟩], .Closed⟩
      ("%s%d__a__5".toList) = some [.str ("a".toList), .optInt (some 5)] := by
  refine ⟨?_, fun v rest => rfl, ?_, by decide, by decide, by decide⟩
  · intro ty
    cases ty <;> rfl
  · intro v rest n h
    simp [consumeSlot, h]

/-- C7 (witness): the Present case of an optional Int slot at the concrete
fragment `"5"`. -/
theorem c7_witness :
    consumeSlot ⟨.Int, .Optional⟩ ["5".toList] =
      (DecodedValue.optInt (some 5), true, []) :=
  c7_optional_slots.2.2.1 ("5".toList) [] 5 (by decide)

/-- C8 (counterexample): the claim fails as stated — descriptor compilation
does not report distinct error variants per failure cause: the empty
descriptor and the leading-optional descriptor `"%s?"` produce the identical
result `none` (the compiler returns `Option`, not a `DescriptorError`). -/
theorem c8_counterexample :
    parse_format_string_ex ("".toList) = parse_format_string_ex ("%s?".toList) ∧
    parse_format_string_ex ("".toList) = none := by
  refine ⟨by decide, by decide⟩

/-- C8 (amended): descriptor compilation detects each failure cause
synchronously and rejects the descriptor, but reports every cause uniformly
as `none` rather than as a distinct error variant: the empty descriptor,
leading optional (`"%s?"`), mandatory after optional (`"%s?%d"`), invalid
character (`"%x"`), misplaced wildcard (`"%s*%d"`), and wildcard with no
items (`"*"`) all compile to `none`. -/
theorem c8_rejections :
    parse_format_string_ex ("".toList) = none ∧
    parse_format_string_ex ("%s?".toList) = none ∧
    parse_format_string_ex ("%s?%d".toList) = none ∧
    parse_format_string_ex ("%x".toList) = none ∧
    parse_format_string_ex ("%s*%d".toList) = none ∧
    parse_format_string_ex ("*".toList) = none := by
  refine ⟨by decide, by decide, by decide, by decide, by decide, by decide⟩

/-- C9: the two parser evolutions agree — for every descriptor string, the
format-side parser (pairs of `%s`/`%d` only) and the extended parser
restricted to all-mandatory Closed schemas return equal results. -/
theorem c9_parsers_agree :
    ∀ fmt : Frag, parse_format_string fmt = FmtProc.parse_format_string fmt := by
  intro fmt
  by_cases hfmt : fmt = []
  · subst hfmt
    decide
  · rw [parse_format_string_eq_toClosed fmt hfmt, fmtproc_eq_parsePairs fmt hfmt,
      parseLoop_toClosed_mand fmt [] (by simp [has_optional_items])]
    cases FmtProc.parsePairs fmt <;> simp

/-- C10: a mandatory Str slot never causes decode failure when a data fragment
is present, even an empty one — `decode(schema_for "%s", "%s__") = Some ("",)`
while the Int case `"%d__"` decodes to `None`. -/
theorem c10_str_empty_fragment :
    (∀ (v : Frag) (rest : List Frag),
      consumeSlot ⟨.Str, .Mandatory⟩ (v :: rest) = (.str v, true, rest)) ∧
    frag_parse ⟨[⟨.Str, .Mandatory⟩], .Closed⟩ ("%s__".toList) = some [.str []] ∧
    frag_parse ⟨[⟨.Int, .Mandatory⟩], .Closed⟩ ("%d__".toList) = none := by
  refine ⟨fun v rest => rfl, by decide, by decide⟩

end Fragstrings
